import Mathlib

/-!
# Verification of `extractor/extractor.go` (tinderizer)

A shallow embedding of the extraction stage of the pipeline:

* the regular expression of `cleanSrcset`, as data for a backtracking matcher
  with the leftmost-first, greedy semantics of Go's `regexp`;
* `attrIndex`, `srcset` and the closure that `rewriteAndDownloadImages` passes
  to `boots.Walk`, with the run-time panic of an out-of-range index explicit;
* `rewriteAndDownloadImages` and `Process`, as functions of the answers of
  their collaborators, producing the trace of channel sends and log lines.

Go strings are modelled by `String` (valid UTF-8) and the matcher works on the
list of runes of the string. The packages `boots`, `hashie`, `job` and
`mercury` are not part of the sources: the parser, the digest, the Mercury
client and the downloader are parameters (`Env`), and the traversal of
`boots.Walk` is modelled from its description.
-/

namespace Tinderizer

/-! ## Regular expressions (leftmost-first, greedy, as in Go's `regexp`) -/

/-- Abstract syntax of the fragment of RE2 used by `cleanSrcset`. -/
inductive Regex where
  | cls (p : Char → Bool)
  | cat (a b : Regex)
  | quest (a : Regex)
  | star (a : Regex)
  | plus (a : Regex)
  | cap (a : Regex)

/-- Continuation of a backtracking match: the remaining input and the text of
capture group 1, if it has been set. -/
abbrev Kont (β : Type) := List Char → Option (List Char) → Option β

/-- Greedy iteration of the matcher `m`: try one more round (which has to
consume input) before trying the continuation. The first argument bounds the
number of rounds. -/
def starK {β : Type} (m : List Char → Option (List Char) → Kont β → Option β) :
    Nat → List Char → Option (List Char) → Kont β → Option β
  | 0, s, c, k => k s c
  | n + 1, s, c, k =>
    match m s c (fun t c' => if t.length < s.length then starK m n t c' k else none) with
    | some r => some r
    | none => k s c

/-- Backtracking matcher in continuation-passing style. `matchK r s c k` tries
the ways `r` can match a prefix of `s` in priority order (greedy operators
prefer more rounds) and returns the first one the continuation accepts. -/
def matchK {β : Type} : Regex → List Char → Option (List Char) → Kont β → Option β
  | .cls p, s, c, k =>
    match s with
    | [] => none
    | a :: t => if p a then k t c else none
  | .cat a b, s, c, k => matchK a s c (fun t c' => matchK b t c' k)
  | .quest a, s, c, k =>
    match matchK a s c k with
    | some r => some r
    | none => k s c
  | .star a, s, c, k => starK (matchK a) s.length s c k
  | .plus a, s, c, k => matchK a s c (fun t c' => starK (matchK a) t.length t c' k)
  | .cap a, s, c, k => matchK a s c (fun t _ => k t (some (s.take (s.length - t.length))))

/-- The final continuation of a match on the input `s`: the text consumed and
capture group 1 (empty when the group did not take part). -/
def finish (s : List Char) : Kont (List Char × List Char) :=
  fun t c => some (s.take (s.length - t.length), c.getD [])

/-- Match anchored at the start of `s`: the whole match and capture group 1. -/
def matchAt (re : Regex) (s : List Char) : Option (List Char × List Char) :=
  matchK re s none (finish s)

/-- Leftmost match of `re` in `s`: `[match[0], match[1]]` of
`FindStringSubmatch`, or `none` for a nil result. -/
def FindStringSubmatch (re : Regex) : List Char → Option (List Char × List Char)
  | [] => matchAt re []
  | a :: t =>
    match matchAt re (a :: t) with
    | some m => some m
    | none => FindStringSubmatch re t

/-- Perl class `\s` of RE2: `[\t\n\f\r ]`. -/
def isSpace (c : Char) : Bool :=
  c == '\t' || c == '\n' || c == Char.ofNat 12 || c == '\r' || c == ' '

/-- Perl class `\d` of RE2: `[0-9]`. -/
def isDigit (c : Char) : Bool := decide ('0' ≤ c) && decide (c ≤ '9')

/-- Class `[^"'\s,]`. -/
def isUrlChar (c : Char) : Bool :=
  !(c == '"' || c == Char.ofNat 39 || isSpace c || c == ',')

/-- Class `[wx]`. -/
def isWX (c : Char) : Bool := c == 'w' || c == 'x'

/-- Class of the single character `,`. -/
def isComma (c : Char) : Bool := c == ','

/-- The expression compiled in `cleanSrcset`:
`(?:(?P<url>[^"'\s,]+)\s*(?:\s+\d+[wx])(?:,\s*)?)`. -/
def srcsetRe : Regex :=
  .cat (.cap (.plus (.cls isUrlChar)))
    (.cat (.star (.cls isSpace))
      (.cat (.cat (.plus (.cls isSpace)) (.cat (.plus (.cls isDigit)) (.cls isWX)))
        (.quest (.cat (.cls isComma) (.star (.cls isSpace))))))

/-- Go `cleanSrcset`: the first capture of the leftmost match, or `val` itself
when nothing matches. -/
def cleanSrcset (val : String) : String :=
  match FindStringSubmatch srcsetRe val.toList with
  | none => val
  | some m => String.mk m.2

/-- The input stops a run of the class `p`: it is empty or begins with a
character outside the class. -/
def stops (p : Char → Bool) : List Char → Bool
  | [] => true
  | a :: _ => !p a

/-- The srcset value `"url1 n1d, url2 n2d"` with two candidates, the numbers in
decimal and the descriptor suffix `d` (`w` or `x`). -/
def srcsetPair (url1 url2 : String) (n1 n2 : Nat) (d : Char) : String :=
  url1 ++ " " ++ toString n1 ++ String.singleton d ++ ", " ++
    url2 ++ " " ++ toString n2 ++ String.singleton d

/-- A candidate with an integer descriptor occurs in `s` at offset `pre.length`:
a non-empty run `u` of URL characters, white space `ws`, digits `ds` and the
unit `d`, which is `w` or `x`. -/
def CandidateAt (s pre u ws ds : List Char) (d : Char) (post : List Char) : Prop :=
  s = pre ++ (u ++ (ws ++ (ds ++ d :: post))) ∧
    u ≠ [] ∧ (∀ a ∈ u, isUrlChar a = true) ∧
    ws ≠ [] ∧ (∀ a ∈ ws, isSpace a = true) ∧
    ds ≠ [] ∧ (∀ a ∈ ds, isDigit a = true) ∧ isWX d = true

/-- Some candidate with an integer descriptor occurs somewhere in `s`. -/
def HasCandidate (s : List Char) : Prop :=
  ∃ pre u ws ds d post, CandidateAt s pre u ws ds d post

/-! ## HTML nodes and attributes (`golang.org/x/net/html`) -/

/-- Go `html.Attribute`. -/
structure Attribute where
  Namespace : String
  Key : String
  Val : String
deriving DecidableEq, Repr

/-- Go `html.NodeType`. -/
inductive NodeType where
  | ErrorNode | TextNode | DocumentNode | ElementNode | CommentNode | DoctypeNode
deriving DecidableEq, Repr

/-- Go `html.Node`, with the sibling/child pointers replaced by the list of
children in document order. `Kind` is the field `Type` of the Go struct. -/
inductive Node where
  | mk (Kind : NodeType) (Data : String) (Namespace : String)
      (Attr : List Attribute) (Children : List Node)

/-- Field `Type` of a node. -/
def Node.Kind : Node → NodeType
  | .mk k _ _ _ _ => k

/-- Field `Data` of a node. -/
def Node.Data : Node → String
  | .mk _ d _ _ _ => d

/-- Field `Attr` of a node. -/
def Node.Attr : Node → List Attribute
  | .mk _ _ _ a _ => a

/-- Children of a node in document order. -/
def Node.Children : Node → List Node
  | .mk _ _ _ _ cs => cs

/-- The loop of `attrIndex`, started at position `i`. -/
def attrIndexFrom (key : String) : List Attribute → Nat → Int
  | [], _ => -1
  | attr :: rest, i => if attr.Key = key then (i : Int) else attrIndexFrom key rest (i + 1)

/-- Go `attrIndex`: position of the first attribute with the key, or `-1`. -/
def attrIndex (node : Node) (key : String) : Int :=
  attrIndexFrom key node.Attr 0

/-- Go `srcset`. -/
def srcset (node : Node) : Bool :=
  decide (attrIndex node "srcset" > -1)

/-- Go index expression `node.Attr[index]` as a read: `none` is the run-time
panic "index out of range". -/
def attrAt (node : Node) (index : Int) : Option Attribute :=
  if index < 0 then none else node.Attr[index.toNat]?

/-- Go assignment `node.Attr[index].Val = val`: `none` is the run-time panic
"index out of range", otherwise the new attribute list. -/
def setAttrVal (node : Node) (index : Int) (val : String) : Option (List Attribute) :=
  if index < 0 then none
  else
    match node.Attr[index.toNat]? with
    | none => none
    | some attr => some (node.Attr.set index.toNat { attr with Val := val })

/-! ## The image visitor of `rewriteAndDownloadImages` -/

/-- Lowercase hexadecimal digit. -/
def hexDigit (n : Nat) : Char :=
  if n < 10 then Char.ofNat (48 + n) else Char.ofNat (87 + n)

/-- Verb `%x` of `fmt` applied to a byte slice: two lowercase digits per byte. -/
def hex (bytes : List UInt8) : List Char :=
  bytes.flatMap (fun b => [hexDigit (b.toNat / 16), hexDigit (b.toNat % 16)])

/-- Go conversion `[]byte(s)`: the UTF-8 bytes of the string. -/
def bytesOf (s : String) : List UInt8 :=
  s.toList.flatMap String.utf8EncodeChar

/-- Go `fmt.Sprintf("%x.jpg", Sha1([]byte(uri)))`, for the digest function
`Sha1` of package `hashie`. -/
def alteredName (Sha1 : List UInt8 → List UInt8) (uri : String) : String :=
  String.mk (hex (Sha1 (bytesOf uri)) ++ ".jpg".toList)

/-- One download goroutine started by the visitor: `downloadToFile(uri, altered)`. -/
structure Download where
  uri : String
  altered : String
deriving DecidableEq, Repr

/-- Outcome of one call of the visitor closure: it returns, leaving the
attribute list `attr` in the node, or it panics; `started` lists the download
goroutines it has started by then. -/
inductive Visit where
  | ok (attr : List Attribute) (started : List Download)
  | panic (started : List Download)
deriving DecidableEq, Repr

/-- The part of the visitor after `uri` has been chosen (lines 142-151): compute
the file name, start the download, write the name into the `src` attribute. -/
def visitFinish (Sha1 : List UInt8 → List UInt8) (node : Node) (uri : String) : Visit :=
  let altered := alteredName Sha1 uri
  match setAttrVal node (attrIndex node "src") altered with
  | none => .panic [⟨uri, altered⟩]
  | some attr => .ok attr [⟨uri, altered⟩]

/-- The closure passed to `boots.Walk` in `rewriteAndDownloadImages`. -/
def visit (Sha1 : List UInt8 → List UInt8) (node : Node) : Visit :=
  if srcset node then
    let index := attrIndex node "srcset"
    if index < 0 then .ok node.Attr []
    else
      match attrAt node index with
      | none => .panic []
      | some attr => visitFinish Sha1 node (cleanSrcset attr.Val)
  else
    let index := attrIndex node "src"
    if index < 0 then .ok node.Attr []
    else
      match attrAt node index with
      | none => .panic []
      | some attr => visitFinish Sha1 node attr.Val

/-! ## SHA-1 (the digest behind `hashie.Sha1`) -/

/-- Rotate a 32-bit word left by `n` bits. -/
def rotl32 (x n : Nat) : Nat :=
  ((x <<< n) ||| (x >>> (32 - n))) % 2 ^ 32

/-- Big-endian bytes of `x`, `n` of them. -/
def beBytes : Nat → Nat → List Nat
  | 0, _ => []
  | n + 1, x => (x / 256 ^ n) % 256 :: beBytes n x

/-- Big-endian value of a list of bytes. -/
def beWord (bs : List Nat) : Nat :=
  bs.foldl (fun acc b => acc * 256 + b) 0

/-- The padded message: a `0x80` byte, zeros up to 56 modulo 64, and the bit
length as a 64-bit big-endian number. -/
def sha1Pad (msg : List Nat) : List Nat :=
  msg ++ [128] ++ List.replicate ((119 - msg.length % 64) % 64) 0
    ++ beBytes 8 ((msg.length * 8) % 2 ^ 64)

/-- Cut a list into consecutive pieces of `n + 1` elements; the first argument
bounds the number of pieces. -/
def chunks (n : Nat) : Nat → List Nat → List (List Nat)
  | 0, _ => []
  | fuel + 1, l =>
    if l.isEmpty then [] else l.take (n + 1) :: chunks n fuel (l.drop (n + 1))

/-- Extend the message schedule, kept newest word first, by `n` words. -/
def sha1Schedule : Nat → List Nat → List Nat
  | 0, w => w
  | n + 1, w =>
    sha1Schedule n
      (rotl32 (w.getD 2 0 ^^^ w.getD 7 0 ^^^ w.getD 13 0 ^^^ w.getD 15 0) 1 :: w)

/-- The five working words. -/
structure Sha1State where
  a : Nat
  b : Nat
  c : Nat
  d : Nat
  e : Nat

/-- One round of the compression function, for round number `i` and schedule
word `w`. -/
def sha1Round (i : Nat) (w : Nat) (s : Sha1State) : Sha1State :=
  let f :=
    if i < 20 then (s.b &&& s.c) ||| ((s.b ^^^ (2 ^ 32 - 1)) &&& s.d)
    else if i < 40 then s.b ^^^ s.c ^^^ s.d
    else if i < 60 then (s.b &&& s.c) ||| (s.b &&& s.d) ||| (s.c &&& s.d)
    else s.b ^^^ s.c ^^^ s.d
  let k :=
    if i < 20 then 0x5A827999 else if i < 40 then 0x6ED9EBA1
    else if i < 60 then 0x8F1BBCDC else 0xCA62C1D6
  ⟨(rotl32 s.a 5 + f + s.e + k + w) % 2 ^ 32, s.a, rotl32 s.b 30, s.c, s.d⟩

/-- The rounds of one block, over the schedule in round order. -/
def sha1Rounds : List Nat → Nat → Sha1State → Sha1State
  | [], _, s => s
  | w :: ws, i, s => sha1Rounds ws (i + 1) (sha1Round i w s)

/-- Process one 64-byte block. -/
def sha1Block (h : Sha1State) (block : List Nat) : Sha1State :=
  let w0 := (chunks 3 16 block).map beWord
  let w := (sha1Schedule 64 w0.reverse).reverse
  let r := sha1Rounds w 0 h
  ⟨(h.a + r.a) % 2 ^ 32, (h.b + r.b) % 2 ^ 32, (h.c + r.c) % 2 ^ 32,
    (h.d + r.d) % 2 ^ 32, (h.e + r.e) % 2 ^ 32⟩

/-- Modelled from the spec: the digest `hashie.Sha1` (package `hashie` is not
part of the sources), the SHA-1 digest of the bytes, 20 bytes long. -/
def sha1 (msg : List UInt8) : List UInt8 :=
  let padded := sha1Pad (msg.map UInt8.toNat)
  let h := (chunks 63 (padded.length / 64 + 1) padded).foldl sha1Block
    ⟨0x67452301, 0xEFCDAB89, 0x98BADCFE, 0x10325476, 0xC3D2E1F0⟩
  ([h.a, h.b, h.c, h.d, h.e].flatMap (beBytes 4)).map UInt8.ofNat

/-! ## `boots.Walk` and `rewriteAndDownloadImages` -/

/-- Result of walking a tree: the rewritten tree (`none` after a panic) and the
downloads started so far, in the order they were started. -/
structure Walked (α : Type) where
  tree : Option α
  started : List Download

mutual
/-- Modelled from the spec: the traversal of `boots.Walk` (package `boots` is not
part of the sources): the visitor is invoked once per element with the given
tag, in document order; a panic of the visitor ends the traversal. -/
def walk (tag : String) (fn : Node → Visit) : Node → Walked Node
  | .mk k d ns a cs =>
    if k = NodeType.ElementNode ∧ d = tag then
      match fn (.mk k d ns a cs) with
      | .panic st => ⟨none, st⟩
      | .ok a' st =>
        match walkList tag fn cs with
        | ⟨none, st'⟩ => ⟨none, st ++ st'⟩
        | ⟨some cs', st'⟩ => ⟨some (.mk k d ns a' cs'), st ++ st'⟩
    else
      match walkList tag fn cs with
      | ⟨none, st'⟩ => ⟨none, st'⟩
      | ⟨some cs', st'⟩ => ⟨some (.mk k d ns a cs'), st'⟩
/-- The traversal of a list of siblings, see `walk`. -/
def walkList (tag : String) (fn : Node → Visit) : List Node → Walked (List Node)
  | [] => ⟨some [], []⟩
  | c :: cs =>
    match walk tag fn c with
    | ⟨none, st⟩ => ⟨none, st⟩
    | ⟨some c', st⟩ =>
      match walkList tag fn cs with
      | ⟨none, st'⟩ => ⟨none, st ++ st'⟩
      | ⟨some cs', st'⟩ => ⟨some (c' :: cs'), st ++ st'⟩
end

/-- The fields of `mercury.Response` read by `Process`. -/
structure Response where
  Title : String
  Domain : String
  Content : String
deriving DecidableEq, Repr

/-- The collaborators of the extractor that are not part of the sources, as
the answers they give: the Mercury client, the HTML parser behind
`boots.Walk`, the digest of package `hashie`, and the image downloader
(`none` is a nil error). -/
structure Env where
  Extract : String → Except String Response
  Parse : String → Except String Node
  Sha1 : List UInt8 → List UInt8
  downloadToFile : (root uri altered : String) → Option String

/-- Result of a call of `rewriteAndDownloadImages`: it returns `(doc, err)`, or
it panics. `log` holds the lines written by the download goroutines and by
the function itself (the interleaving of the goroutines is not modelled: the
lines are listed in the order the downloads were started). -/
inductive Rewritten where
  | returned (doc : Option Node) (err : Option String) (log : List String)
  | panicked (log : List String)

/-- Log lines of one download goroutine (lines 146-149). -/
def downloadLog (env : Env) (root : String) (d : Download) : List String :=
  ("downloading image: " ++ d.uri) ::
    (match env.downloadToFile root d.uri d.altered with
     | some err => ["downloading image failed: " ++ err]
     | none => [])

/-- Go `rewriteAndDownloadImages`. -/
def rewriteAndDownloadImages (env : Env) (root : String) (content : String) : Rewritten :=
  match env.Parse content with
  | .error err => .returned none (some err) ["finished rewriting images"]
  | .ok parsed =>
    match walk "img" (visit env.Sha1) parsed with
    | ⟨none, st⟩ => .panicked (st.flatMap (downloadLog env root))
    | ⟨some doc, st⟩ =>
      .returned (some doc) none (st.flatMap (downloadLog env root) ++ ["finished rewriting images"])

/-- What a call of `rewriteAndDownloadImages` hands back to its caller: the pair
`(doc, err)`, or `none` when it panicked. -/
def Rewritten.result : Rewritten → Option (Option Node × Option String)
  | .returned doc err _ => some (doc, err)
  | .panicked _ => none

/-! ## Jobs and the worker `Process` -/

/-- Go constant `FriendlyMessage`. -/
def FriendlyMessage : String := "Sorry, extraction failed."

/-- The fields of `job.Job` the extractor reads or writes; `Root` is the value
of the method `Root()`. -/
structure Job where
  Url : String
  Root : String
  Title : String
  Domain : String
  Doc : Option Node
  Friendly : String

/-- Observable effects of a worker, in program order. -/
inductive Event where
  | Progress (msg : String)
  | Log (line : String)
  | SendError (job : Job)
  | SendOutput (job : Job)
  | WgDone

/-- Go method `Extractor.error`: log the line, set the friendly message, send
the job on `Error`. -/
def Extractor.error (job : Job) (line : String) : List Event :=
  [.Log line, .SendError { job with Friendly := FriendlyMessage }]

/-- Trace of one call of `Process`, and whether it ended in a panic. -/
structure Trace where
  events : List Event
  panicked : Bool

/-- Go method `Extractor.Process`. The deferred `wg.Done` runs last, also when
the call panics. -/
def Process (env : Env) (job : Job) : Trace :=
  let start := [Event.Progress "Extracting..."]
  match env.Extract job.Url with
  | .error err => ⟨start ++ Extractor.error job err ++ [.WgDone], false⟩
  | .ok resp =>
    match rewriteAndDownloadImages env job.Root resp.Content with
    | .panicked log => ⟨start ++ log.map .Log ++ [.WgDone], true⟩
    | .returned _ (some err) log =>
      ⟨start ++ log.map .Log ++ Extractor.error job ("HTML parsing failed: " ++ err) ++ [.WgDone],
        false⟩
    | .returned doc none log =>
      let job1 := { job with Doc := doc }
      let job2 := if resp.Title ≠ "" then { job1 with Title := resp.Title } else job1
      let job3 := { job2 with Domain := resp.Domain }
      ⟨start ++ log.map .Log ++ [.Progress "Extraction complete...", .SendOutput job3, .WgDone],
        false⟩

/-- Jobs sent on the `Error` channel, in order. -/
def sentError : List Event → List Job
  | [] => []
  | .SendError j :: es => j :: sentError es
  | _ :: es => sentError es

/-- Jobs sent on the `Output` channel, in order. -/
def sentOutput : List Event → List Job
  | [] => []
  | .SendOutput j :: es => j :: sentOutput es
  | _ :: es => sentOutput es


/-! ## Example inputs -/

/-- The element `<img src="http://x/1.png">`. -/
def imgSrcOnly : Node :=
  .mk .ElementNode "img" "" [⟨"", "src", "http://x/1.png"⟩] []

/-- The element `<img srcset="http://x/1.png 1x, http://x/2.png 2x">`. -/
def imgSrcsetOnly : Node :=
  .mk .ElementNode "img" "" [⟨"", "srcset", "http://x/1.png 1x, http://x/2.png 2x"⟩] []

/-- The element `<img alt="a" src="http://x/s.png" srcset="http://x/1.png 1x, http://x/2.png 2x">`. -/
def imgBoth : Node :=
  .mk .ElementNode "img" ""
    [⟨"", "alt", "a"⟩, ⟨"", "src", "http://x/s.png"⟩,
      ⟨"", "srcset", "http://x/1.png 1x, http://x/2.png 2x"⟩] []

/-- A parsed page with the given element as the only child of its body. -/
def pageWith (img : Node) : Node :=
  .mk .DocumentNode "" "" []
    [.mk .ElementNode "html" "" []
      [.mk .ElementNode "head" "" [] [], .mk .ElementNode "body" "" [] [img]]]

/-- An environment in which extraction answers with title `Hello` and the page
parses to `page`; `fails` tells which downloads fail. -/
def envWith (page : Node) (fails : String → Bool) : Env where
  Extract := fun _ => .ok ⟨"Hello", "example.com", "<img>"⟩
  Parse := fun _ => .ok page
  Sha1 := sha1
  downloadToFile := fun _ uri _ => if fails uri then some "timeout" else none

/-- An environment in which the extraction service fails. -/
def envExtractFails : Env where
  Extract := fun _ => .error "mercury: 500"
  Parse := fun _ => .ok (pageWith imgSrcOnly)
  Sha1 := sha1
  downloadToFile := fun _ _ _ => none

/-- A job as it enters the extractor. -/
def jobA : Job := ⟨"http://example.com/a", "/tmp/a", "Untitled", "", none, ""⟩

/-! ## Lemmas on traces -/

theorem sentError_append (xs ys : List Event) :
    sentError (xs ++ ys) = sentError xs ++ sentError ys := by
  induction xs with
  | nil => rfl
  | cons e es ih => cases e <;> simp [sentError, ih]

theorem sentOutput_append (xs ys : List Event) :
    sentOutput (xs ++ ys) = sentOutput xs ++ sentOutput ys := by
  induction xs with
  | nil => rfl
  | cons e es ih => cases e <;> simp [sentOutput, ih]

theorem sentError_map_Log (log : List String) : sentError (log.map Event.Log) = [] := by
  induction log with
  | nil => rfl
  | cons l ls ih => simpa [sentError] using ih

theorem sentOutput_map_Log (log : List String) : sentOutput (log.map Event.Log) = [] := by
  induction log with
  | nil => rfl
  | cons l ls ih => simpa [sentOutput] using ih

/-! ## The worker `Process` -/

/-- C1: whenever `rewriteAndDownloadImages`, if `Process` gets to call it,
returns (with or without an error), `Process` performs exactly one channel
send: one on `Error` and none on `Output`, or one on `Output` and none on
`Error`. -/
theorem Process_sends_exactly_once (env : Env) (job : Job)
    (hret : ∀ resp, env.Extract job.Url = .ok resp →
      ∃ doc err log, rewriteAndDownloadImages env job.Root resp.Content = .returned doc err log) :
    ((sentError (Process env job).events).length = 1 ∧
        (sentOutput (Process env job).events).length = 0) ∨
      ((sentError (Process env job).events).length = 0 ∧
        (sentOutput (Process env job).events).length = 1) := by
  unfold Process
  cases hx : env.Extract job.Url with
  | error err =>
    left
    simp [Extractor.error, sentError, sentOutput]
  | ok resp =>
    obtain ⟨doc, err, log, hr⟩ := hret resp hx
    cases err with
    | some e =>
      left
      simp [hr, Extractor.error, sentError, sentOutput, sentError_append, sentOutput_append,
        sentError_map_Log, sentOutput_map_Log]
    | none =>
      right
      simp [hr, sentError, sentOutput, sentError_append, sentOutput_append,
        sentError_map_Log, sentOutput_map_Log]

/-- Witness for C1: extraction succeeds, the page rewrites, and the job is sent
once on `Output`. -/
theorem Process_sends_exactly_once_witness :
    (∀ resp, (envWith (pageWith imgSrcOnly) (fun _ => false)).Extract jobA.Url = .ok resp →
      ∃ doc err log, rewriteAndDownloadImages (envWith (pageWith imgSrcOnly) (fun _ => false))
        jobA.Root resp.Content = .returned doc err log) ∧
    (((sentError (Process (envWith (pageWith imgSrcOnly) (fun _ => false)) jobA).events).length = 1 ∧
        (sentOutput (Process (envWith (pageWith imgSrcOnly) (fun _ => false)) jobA).events).length = 0) ∨
      ((sentError (Process (envWith (pageWith imgSrcOnly) (fun _ => false)) jobA).events).length = 0 ∧
        (sentOutput (Process (envWith (pageWith imgSrcOnly) (fun _ => false)) jobA).events).length = 1)) :=
  ⟨fun _ _ => ⟨_, _, _, rfl⟩,
    Process_sends_exactly_once _ _ (fun _ _ => ⟨_, _, _, rfl⟩)⟩

/-- C2: `Process` sends on `Error` exactly when the extraction call fails or
`rewriteAndDownloadImages` returns an error; the job sent then is the input
job with `Friendly` set to the fixed message (same `Url`, `Title`, `Domain`
and `Doc`), and nothing is sent on `Output`. -/
theorem Process_error_route (env : Env) (job : Job) :
    (sentError (Process env job).events ≠ [] ↔
      ((∃ err, env.Extract job.Url = .error err) ∨
        ∃ resp doc err log, env.Extract job.Url = .ok resp ∧
          rewriteAndDownloadImages env job.Root resp.Content = .returned doc (some err) log)) ∧
    (sentError (Process env job).events ≠ [] →
      sentOutput (Process env job).events = [] ∧
      ∃ j, sentError (Process env job).events = [j] ∧
        j.Friendly = "Sorry, extraction failed." ∧ j.Title = job.Title ∧
        j.Domain = job.Domain ∧ j.Doc = job.Doc ∧ j.Url = job.Url) := by
  unfold Process
  cases hx : env.Extract job.Url with
  | error err =>
    simp [Extractor.error, sentError, sentOutput, FriendlyMessage]
  | ok resp =>
    simp only []
    cases hr : rewriteAndDownloadImages env job.Root resp.Content with
    | panicked log =>
      simp [hr, sentError, sentError_append, sentError_map_Log]
    | returned doc err log =>
      cases err with
      | some e =>
        simp [hr, Extractor.error, sentError, sentOutput, sentError_append, sentOutput_append,
          sentError_map_Log, sentOutput_map_Log, FriendlyMessage]
      | none =>
        simp [hr, sentError, sentError_append, sentError_map_Log]

/-- C3: when extraction answers `resp` and its content rewrites without error
to `doc`, the job sent on `Output` has `Doc = doc`, `Domain = resp.Domain`, and
the title of `resp` unless that is empty, in which case it keeps its own. -/
theorem Process_output_merge (env : Env) (job : Job) (resp : Response)
    (doc : Option Node) (log : List String)
    (hx : env.Extract job.Url = .ok resp)
    (hr : rewriteAndDownloadImages env job.Root resp.Content = .returned doc none log) :
    sentError (Process env job).events = [] ∧
    ∃ j, sentOutput (Process env job).events = [j] ∧ j.Doc = doc ∧
      j.Domain = resp.Domain ∧
      (resp.Title ≠ "" → j.Title = resp.Title) ∧ (resp.Title = "" → j.Title = job.Title) := by
  unfold Process
  simp only [hx, hr]
  by_cases ht : resp.Title = "" <;>
    simp [ht, sentError, sentOutput, sentError_append, sentOutput_append,
      sentError_map_Log, sentOutput_map_Log]

/-- Witness for C3: the page with one image, title `Hello`. -/
theorem Process_output_merge_witness :
    (envWith (pageWith imgSrcOnly) (fun _ => false)).Extract jobA.Url =
        .ok ⟨"Hello", "example.com", "<img>"⟩ ∧
    rewriteAndDownloadImages (envWith (pageWith imgSrcOnly) (fun _ => false)) jobA.Root "<img>" =
        .returned
          (some (pageWith (.mk .ElementNode "img" ""
            [⟨"", "src", alteredName sha1 "http://x/1.png"⟩] [])))
          none ["downloading image: http://x/1.png", "finished rewriting images"] ∧
    (sentError (Process (envWith (pageWith imgSrcOnly) (fun _ => false)) jobA).events = [] ∧
      ∃ j, sentOutput (Process (envWith (pageWith imgSrcOnly) (fun _ => false)) jobA).events = [j] ∧
        j.Doc = some (pageWith (.mk .ElementNode "img" ""
            [⟨"", "src", alteredName sha1 "http://x/1.png"⟩] [])) ∧
        j.Domain = "example.com" ∧
        (("Hello" : String) ≠ "" → j.Title = "Hello") ∧
        (("Hello" : String) = "" → j.Title = jobA.Title)) :=
  ⟨rfl, rfl,
    Process_output_merge (envWith (pageWith imgSrcOnly) (fun _ => false)) jobA
      ⟨"Hello", "example.com", "<img>"⟩ _ _ rfl rfl⟩

/-! ## Attribute lookup -/

theorem attrIndexFrom_cons (key : String) (b : Attribute) (l : List Attribute) (i : Nat) :
    attrIndexFrom key (b :: l) i =
      if b.Key = key then (i : Int) else attrIndexFrom key l (i + 1) := rfl

theorem attrIndexFrom_miss (key : String) (l : List Attribute) (i : Nat)
    (h : ∀ b ∈ l, b.Key ≠ key) : attrIndexFrom key l i = -1 := by
  induction l generalizing i with
  | nil => rfl
  | cons b bs ih =>
    have hb : b.Key ≠ key := h b (List.mem_cons_self _ _)
    rw [attrIndexFrom_cons, if_neg hb]
    exact ih (i + 1) (fun c hc => h c (List.mem_cons_of_mem _ hc))

theorem attrIndexFrom_hit (key : String) (pre post : List Attribute) (a : Attribute) (i : Nat)
    (hpre : ∀ b ∈ pre, b.Key ≠ key) (ha : a.Key = key) :
    attrIndexFrom key (pre ++ a :: post) i = ((i + pre.length : Nat) : Int) := by
  induction pre generalizing i with
  | nil => simp [attrIndexFrom, ha]
  | cons b bs ih =>
    have hb : b.Key ≠ key := hpre b (List.mem_cons_self _ _)
    rw [List.cons_append, attrIndexFrom_cons, if_neg hb,
      ih (i + 1) (fun c hc => hpre c (List.mem_cons_of_mem _ hc)), List.length_cons]
    congr 1
    omega

theorem getElem?_split (pre post : List Attribute) (a : Attribute) :
    (pre ++ a :: post)[pre.length]? = some a := by
  rw [List.getElem?_append_right (Nat.le_refl _)]
  simp

theorem set_split (pre post : List Attribute) (a b : Attribute) :
    (pre ++ a :: post).set pre.length b = pre ++ b :: post := by
  simp [List.set_append]

/-- The final write of the visitor when the first `src` attribute is `a`. -/
theorem visitFinish_hit (Sha1 : List UInt8 → List UInt8) (node : Node)
    (pre post : List Attribute) (a : Attribute) (uri : String)
    (hattr : node.Attr = pre ++ a :: post)
    (hkey : a.Key = "src") (hfirst : ∀ b ∈ pre, b.Key ≠ "src") :
    visitFinish Sha1 node uri =
      .ok (pre ++ { a with Val := alteredName Sha1 uri } :: post)
        [⟨uri, alteredName Sha1 uri⟩] := by
  have hi : attrIndex node "src" = ((pre.length : Nat) : Int) := by
    simp [attrIndex, hattr, attrIndexFrom_hit "src" pre post a 0 hfirst hkey]
  have hneg : ¬ (((pre.length : Nat) : Int) < 0) := by omega
  simp only [visitFinish, setAttrVal, hi, hattr, if_neg hneg, Int.toNat_ofNat,
    getElem?_split, set_split]

/-- The final write of the visitor when there is no `src` attribute. -/
theorem visitFinish_miss (Sha1 : List UInt8 → List UInt8) (node : Node) (uri : String)
    (hnone : ∀ b ∈ node.Attr, b.Key ≠ "src") :
    visitFinish Sha1 node uri = .panic [⟨uri, alteredName Sha1 uri⟩] := by
  have hi : attrIndex node "src" = -1 := attrIndexFrom_miss "src" node.Attr 0 hnone
  simp [visitFinish, setAttrVal, hi]

theorem hexDigit_mem (n : Nat) (h : n < 16) : hexDigit n ∈ "0123456789abcdef".toList := by
  interval_cases n <;> decide

theorem hex_length (bytes : List UInt8) : (hex bytes).length = 2 * bytes.length := by
  induction bytes with
  | nil => rfl
  | cons b bs ih =>
    simp only [hex, List.flatMap_cons, List.length_append, List.length_cons, List.length_nil] at ih ⊢
    omega

theorem hex_lowercase (bytes : List UInt8) :
    ∀ c ∈ hex bytes, c ∈ "0123456789abcdef".toList := by
  intro c hc
  simp only [hex, List.mem_flatMap, List.mem_cons, List.mem_singleton] at hc
  obtain ⟨b, _, hb⟩ := hc
  have hlt : b.toNat < 256 := b.toNat_lt
  rcases hb with rfl | rfl | h
  · exact hexDigit_mem _ (by omega)
  · exact hexDigit_mem _ (by omega)
  · simp at h

theorem sha1_length (msg : List UInt8) : (sha1 msg).length = 20 := by
  simp [sha1, beBytes]

/-! ## The image visitor -/

/-- C4: for an element whose first `src` attribute is `a` and that has no
`srcset` attribute, the visitor returns with the value of that attribute set
to the lowercase hexadecimal digest of the bytes of `a.Val` followed by
`.jpg`, all other attributes untouched, and starts exactly one download, of
`a.Val` under that name; the name has 40 hexadecimal characters before the
extension when the digest has 20 bytes. -/
theorem visit_src_only (Sha1 : List UInt8 → List UInt8) (node : Node)
    (pre post : List Attribute) (a : Attribute)
    (hattr : node.Attr = pre ++ a :: post)
    (hkey : a.Key = "src") (hfirst : ∀ b ∈ pre, b.Key ≠ "src")
    (hnone : ∀ b ∈ node.Attr, b.Key ≠ "srcset") :
    visit Sha1 node =
        .ok (pre ++ { a with Val := String.mk (hex (Sha1 (bytesOf a.Val)) ++ ".jpg".toList) } :: post)
          [⟨a.Val, String.mk (hex (Sha1 (bytesOf a.Val)) ++ ".jpg".toList)⟩] ∧
      (∀ c ∈ hex (Sha1 (bytesOf a.Val)), c ∈ "0123456789abcdef".toList) ∧
      ((Sha1 (bytesOf a.Val)).length = 20 → (hex (Sha1 (bytesOf a.Val))).length = 40) := by
  refine ⟨?_, hex_lowercase _, fun h => by rw [hex_length, h]⟩
  have hs : attrIndex node "srcset" = -1 := attrIndexFrom_miss "srcset" node.Attr 0 hnone
  have hi : attrIndex node "src" = ((pre.length : Nat) : Int) := by
    simp [attrIndex, hattr, attrIndexFrom_hit "src" pre post a 0 hfirst hkey]
  have hneg : ¬ (((pre.length : Nat) : Int) < 0) := by omega
  have hv := visitFinish_hit Sha1 node pre post a a.Val hattr hkey hfirst
  simp only [alteredName] at hv
  simp only [visit, srcset, hs, hi, if_neg hneg, attrAt, Int.toNat_ofNat, hattr, getElem?_split]
  simpa [hattr] using hv

/-- Witness for C4: the element `<img src="http://x/1.png">` with the SHA-1
digest. -/
theorem visit_src_only_witness :
    imgSrcOnly.Attr = [] ++ (⟨"", "src", "http://x/1.png"⟩ : Attribute) :: [] ∧
    visit sha1 imgSrcOnly =
      .ok ([] ++ ({ (⟨"", "src", "http://x/1.png"⟩ : Attribute) with
              Val := String.mk (hex (sha1 (bytesOf "http://x/1.png")) ++ ".jpg".toList) }) :: [])
          [⟨"http://x/1.png", String.mk (hex (sha1 (bytesOf "http://x/1.png")) ++ ".jpg".toList)⟩] ∧
    (hex (sha1 (bytesOf "http://x/1.png"))).length = 40 :=
  have h := visit_src_only sha1 imgSrcOnly [] [] ⟨"", "src", "http://x/1.png"⟩ rfl rfl
    (by simp) (by simp [imgSrcOnly, Node.Attr])
  ⟨rfl, h.1, h.2.2 (sha1_length _)⟩

/-- C7: on `<img srcset="http://x/1.png 1x, http://x/2.png 2x">` the lookup of
`src` gives `-1`, and the visitor panics on the write through that index,
after it has started the download of the first srcset URL. -/
theorem visit_srcset_only_panics (Sha1 : List UInt8 → List UInt8) :
    attrIndex imgSrcsetOnly "src" = -1 ∧
    setAttrVal imgSrcsetOnly (attrIndex imgSrcsetOnly "src") (alteredName Sha1 "http://x/1.png")
      = none ∧
    visit Sha1 imgSrcsetOnly =
      .panic [⟨"http://x/1.png", alteredName Sha1 "http://x/1.png"⟩] := by
  refine ⟨by decide, by simp [setAttrVal, show attrIndex imgSrcsetOnly "src" = -1 by decide], ?_⟩
  have hc : cleanSrcset "http://x/1.png 1x, http://x/2.png 2x" = "http://x/1.png" := by decide
  have hs : attrIndex imgSrcsetOnly "srcset" = 0 := by decide
  have hm := visitFinish_miss Sha1 imgSrcsetOnly "http://x/1.png" (by decide)
  simp only [visit, srcset, hs]
  simpa [attrAt, imgSrcsetOnly, Node.Attr, hc] using hm

/-- Every element with a `srcset` attribute and no `src` attribute makes the
visitor panic, after the download of the srcset URL was started. -/
theorem visit_srcset_without_src (Sha1 : List UInt8 → List UInt8) (node : Node)
    (pre post : List Attribute) (b : Attribute)
    (hattr : node.Attr = pre ++ b :: post)
    (hkey : b.Key = "srcset") (hfirst : ∀ c ∈ pre, c.Key ≠ "srcset")
    (hnone : ∀ c ∈ node.Attr, c.Key ≠ "src") :
    visit Sha1 node =
      .panic [⟨cleanSrcset b.Val, alteredName Sha1 (cleanSrcset b.Val)⟩] := by
  have hs : attrIndex node "srcset" = ((pre.length : Nat) : Int) := by
    simp [attrIndex, hattr, attrIndexFrom_hit "srcset" pre post b 0 hfirst hkey]
  have hneg : ¬ (((pre.length : Nat) : Int) < 0) := by omega
  have hpos : ((pre.length : Nat) : Int) > -1 := by omega
  have hm := visitFinish_miss Sha1 node (cleanSrcset b.Val) hnone
  simp only [visit, srcset, hs, hpos, decide_True, if_true, if_neg hneg, attrAt,
    Int.toNat_ofNat, hattr, getElem?_split]
  simpa using hm

/-- C10: for an element whose first `srcset` attribute is `b` and whose first
`src` attribute is `a`, the visitor downloads `cleanSrcset b.Val`, writes the
name derived from it into `a`, and leaves every other attribute (key, value,
position), the `srcset` attribute among them, as it was. -/
theorem visit_srcset_precedence (Sha1 : List UInt8 → List UInt8) (node : Node)
    (pre post pre' post' : List Attribute) (a b : Attribute)
    (hattr : node.Attr = pre ++ a :: post)
    (hkey : a.Key = "src") (hfirst : ∀ c ∈ pre, c.Key ≠ "src")
    (hattr' : node.Attr = pre' ++ b :: post')
    (hkey' : b.Key = "srcset") (hfirst' : ∀ c ∈ pre', c.Key ≠ "srcset") :
    visit Sha1 node =
        .ok (pre ++ { a with Val := String.mk (hex (Sha1 (bytesOf (cleanSrcset b.Val))) ++ ".jpg".toList) } :: post)
          [⟨cleanSrcset b.Val,
            String.mk (hex (Sha1 (bytesOf (cleanSrcset b.Val))) ++ ".jpg".toList)⟩] ∧
      (pre ++ { a with Val := String.mk (hex (Sha1 (bytesOf (cleanSrcset b.Val))) ++ ".jpg".toList) } :: post).length
        = node.Attr.length ∧
      (∀ j, j ≠ pre.length →
        (pre ++ { a with Val := String.mk (hex (Sha1 (bytesOf (cleanSrcset b.Val))) ++ ".jpg".toList) } :: post)[j]?
          = node.Attr[j]?) ∧
      b ∈ pre ++ { a with Val := String.mk (hex (Sha1 (bytesOf (cleanSrcset b.Val))) ++ ".jpg".toList) } :: post := by
  have hs : attrIndex node "srcset" = ((pre'.length : Nat) : Int) := by
    simp [attrIndex, hattr', attrIndexFrom_hit "srcset" pre' post' b 0 hfirst' hkey']
  have hneg : ¬ (((pre'.length : Nat) : Int) < 0) := by omega
  have hpos : ((pre'.length : Nat) : Int) > -1 := by omega
  have hv := visitFinish_hit Sha1 node pre post a (cleanSrcset b.Val) hattr hkey hfirst
  simp only [alteredName] at hv
  refine ⟨?_, by simp [hattr], ?_, ?_⟩
  · simp only [visit, srcset, hs, hpos, decide_True, if_true, if_neg hneg, attrAt,
      Int.toNat_ofNat, hattr', getElem?_split]
    simpa using hv
  · intro j hj
    rw [hattr]
    rcases Nat.lt_or_gt_of_ne hj with h | h
    · rw [List.getElem?_append_left h, List.getElem?_append_left h]
    · rw [List.getElem?_append_right (Nat.le_of_lt h), List.getElem?_append_right (Nat.le_of_lt h)]
      obtain ⟨k, hk⟩ : ∃ k, j - pre.length = k + 1 := ⟨j - pre.length - 1, by omega⟩
      simp [hk]
  · have hb : b ∈ node.Attr := by rw [hattr']; simp
    rw [hattr] at hb
    rcases List.mem_append.1 hb with h | h
    · exact List.mem_append.2 (Or.inl h)
    · rcases List.mem_cons.1 h with h | h
      · exact absurd (h ▸ hkey' : a.Key = "srcset") (by rw [hkey]; decide)
      · exact List.mem_append.2 (Or.inr (List.mem_cons_of_mem _ h))

/-- Witness for C10: an element with `alt`, `src` and `srcset`. -/
theorem visit_srcset_precedence_witness :
    visit sha1 imgBoth =
      .ok [⟨"", "alt", "a"⟩,
          ⟨"", "src",
            String.mk (hex (sha1 (bytesOf (cleanSrcset "http://x/1.png 1x, http://x/2.png 2x")))
              ++ ".jpg".toList)⟩,
          ⟨"", "srcset", "http://x/1.png 1x, http://x/2.png 2x"⟩]
        [⟨cleanSrcset "http://x/1.png 1x, http://x/2.png 2x",
          String.mk (hex (sha1 (bytesOf (cleanSrcset "http://x/1.png 1x, http://x/2.png 2x")))
            ++ ".jpg".toList)⟩] :=
  (visit_srcset_precedence sha1 imgBoth [⟨"", "alt", "a"⟩]
    [⟨"", "srcset", "http://x/1.png 1x, http://x/2.png 2x"⟩]
    [⟨"", "alt", "a"⟩, ⟨"", "src", "http://x/s.png"⟩] []
    ⟨"", "src", "http://x/s.png"⟩ ⟨"", "srcset", "http://x/1.png 1x, http://x/2.png 2x"⟩
    rfl rfl (by decide) rfl rfl (by decide)).1

/-! ## `rewriteAndDownloadImages` and the downloads -/

/-- C8: what `rewriteAndDownloadImages` hands back (the document with its
rewritten attributes, and the error) is the same whatever the downloads
answer, and when it returns, the error is non-nil exactly when parsing
failed. -/
theorem rewrite_independent_of_downloads (env : Env)
    (dl1 dl2 : String → String → String → Option String) (root content : String) :
    (rewriteAndDownloadImages { env with downloadToFile := dl1 } root content).result =
        (rewriteAndDownloadImages { env with downloadToFile := dl2 } root content).result ∧
      ∀ doc err log, rewriteAndDownloadImages env root content = .returned doc err log →
        (err ≠ none ↔ ∃ e, env.Parse content = .error e) := by
  constructor
  · simp only [rewriteAndDownloadImages]
    cases env.Parse content with
    | error e => rfl
    | ok parsed =>
      simp only []
      rcases walk "img" (visit env.Sha1) parsed with ⟨_ | doc, st⟩ <;> rfl
  · intro doc err log h
    simp only [rewriteAndDownloadImages] at h
    cases hp : env.Parse content with
    | error e =>
      rw [hp] at h
      simp only [Rewritten.returned.injEq] at h
      simp [← h.2.1]
    | ok parsed =>
      rw [hp] at h
      simp only [] at h
      rcases hw : walk "img" (visit env.Sha1) parsed with ⟨_ | d, st⟩
      · rw [hw] at h; simp at h
      · rw [hw] at h
        simp only [Rewritten.returned.injEq] at h
        simp [← h.2.1]

/-- One failing download among two images: both attributes are rewritten all
the same and the only trace of the failure is a log line. -/
theorem rewrite_with_failed_download :
    rewriteAndDownloadImages
        (envWith (.mk .ElementNode "body" "" [] [imgSrcOnly, imgBoth]) (fun u => u == "http://x/1.png"))
        "/tmp/a" "" =
      .returned
        (some (.mk .ElementNode "body" "" []
          [.mk .ElementNode "img" "" [⟨"", "src", alteredName sha1 "http://x/1.png"⟩] [],
            .mk .ElementNode "img" ""
              [⟨"", "alt", "a"⟩, ⟨"", "src", alteredName sha1 "http://x/1.png"⟩,
                ⟨"", "srcset", "http://x/1.png 1x, http://x/2.png 2x"⟩] []]))
        none
        ["downloading image: http://x/1.png", "downloading image failed: timeout",
          "downloading image: http://x/1.png", "downloading image failed: timeout",
          "finished rewriting images"] := by
  rfl

set_option maxRecDepth 1000000 in
/-- The file name of `http://x/1.png` under the SHA-1 digest. -/
theorem alteredName_example :
    alteredName sha1 "http://x/1.png" = "d321cdc092177c0c42b0477f61a79c60883c5259.jpg" := by
  rfl

/-- The page of the scenario `<img src="http://x/1.png">`: the job goes out on
`Output` with title `Hello` and the image renamed to its digest. -/
theorem Process_scenario_hello :
    (Process (envWith (pageWith imgSrcOnly) (fun _ => false)) jobA).events =
      [.Progress "Extracting...", .Log "downloading image: http://x/1.png",
        .Log "finished rewriting images", .Progress "Extraction complete...",
        .SendOutput ⟨"http://example.com/a", "/tmp/a", "Hello", "example.com",
          some (pageWith (.mk .ElementNode "img" ""
            [⟨"", "src", alteredName sha1 "http://x/1.png"⟩] [])), ""⟩,
        .WgDone] := by
  rfl

/-- A page holding `<img srcset=...>` without `src`: the worker panics and the
job is sent on neither channel. -/
theorem Process_srcset_only_panics :
    (Process (envWith (pageWith imgSrcsetOnly) (fun _ => false)) jobA).panicked = true ∧
    sentError (Process (envWith (pageWith imgSrcsetOnly) (fun _ => false)) jobA).events = [] ∧
    sentOutput (Process (envWith (pageWith imgSrcsetOnly) (fun _ => false)) jobA).events = [] := by
  refine ⟨rfl, rfl, rfl⟩

/-! ## The matcher on runs of a character class -/

theorem matchK_cls_cons {β : Type} (p : Char → Bool) (a : Char) (t : List Char)
    (c : Option (List Char)) (k : Kont β) :
    matchK (.cls p) (a :: t) c k = if p a then k t c else none := rfl

theorem matchK_cat {β : Type} (a b : Regex) (s : List Char) (c : Option (List Char))
    (k : Kont β) :
    matchK (.cat a b) s c k = matchK a s c (fun t c' => matchK b t c' k) := rfl

theorem matchK_quest {β : Type} (a : Regex) (s : List Char) (c : Option (List Char))
    (k : Kont β) :
    matchK (.quest a) s c k =
      match matchK a s c k with
      | some r => some r
      | none => k s c := rfl

theorem matchK_star {β : Type} (a : Regex) (s : List Char) (c : Option (List Char))
    (k : Kont β) :
    matchK (.star a) s c k = starK (matchK a) s.length s c k := rfl

theorem matchK_plus {β : Type} (a : Regex) (s : List Char) (c : Option (List Char))
    (k : Kont β) :
    matchK (.plus a) s c k =
      matchK a s c (fun t c' => starK (matchK a) t.length t c' k) := rfl

theorem matchK_cap {β : Type} (a : Regex) (s : List Char) (c : Option (List Char))
    (k : Kont β) :
    matchK (.cap a) s c k =
      matchK a s c (fun t _ => k t (some (s.take (s.length - t.length)))) := rfl

theorem starK_succ {β : Type} (m : List Char → Option (List Char) → Kont β → Option β)
    (n : Nat) (s : List Char) (c : Option (List Char)) (k : Kont β) :
    starK m (n + 1) s c k =
      match m s c (fun t c' => if t.length < s.length then starK m n t c' k else none) with
      | some r => some r
      | none => k s c := rfl

theorem matchK_cls_stop {β : Type} (p : Char → Bool) (r : List Char) (c : Option (List Char))
    (k : Kont β) (h : stops p r = true) : matchK (.cls p) r c k = none := by
  cases r with
  | nil => rfl
  | cons a t =>
    have ha : p a = false := by simpa [stops] using h
    rw [matchK_cls_cons, ha]
    rfl

theorem starK_cls_stop {β : Type} (p : Char → Bool) (r : List Char) (c : Option (List Char))
    (k : Kont β) (n : Nat) (h : stops p r = true) :
    starK (matchK (.cls p)) n r c k = k r c := by
  cases n with
  | zero => rfl
  | succ n => rw [starK_succ, matchK_cls_stop p r c _ h]

/-- A greedy star over a class takes the whole run when the continuation
accepts what follows the run. -/
theorem starK_cls_greedy {β : Type} (p : Char → Bool) (u r : List Char)
    (c : Option (List Char)) (k : Kont β) (v : β) (n : Nat) (hn : u.length ≤ n)
    (hu : ∀ a ∈ u, p a = true) (hr : stops p r = true) (hk : k r c = some v) :
    starK (matchK (.cls p)) n (u ++ r) c k = some v := by
  induction u generalizing n with
  | nil => simpa [starK_cls_stop p r c k n hr] using hk
  | cons a u ih =>
    cases n with
    | zero => simp at hn
    | succ n =>
      have ha : p a = true := hu a (List.mem_cons_self _ _)
      have ih' := ih n (by simpa using hn) (fun b hb => hu b (List.mem_cons_of_mem _ hb))
      rw [List.cons_append, starK_succ, matchK_cls_cons, if_pos ha,
        if_pos (by simp), ih']

/-- A greedy plus over a class takes the whole non-empty run when the
continuation accepts what follows the run. -/
theorem plusK_cls_greedy {β : Type} (p : Char → Bool) (u r : List Char)
    (c : Option (List Char)) (k : Kont β) (v : β) (hne : u ≠ [])
    (hu : ∀ a ∈ u, p a = true) (hr : stops p r = true) (hk : k r c = some v) :
    matchK (.plus (.cls p)) (u ++ r) c k = some v := by
  cases u with
  | nil => exact absurd rfl hne
  | cons a u =>
    have ha : p a = true := hu a (List.mem_cons_self _ _)
    have h := starK_cls_greedy p u r c k v (u ++ r).length (by simp)
      (fun b hb => hu b (List.mem_cons_of_mem _ hb)) hr hk
    rw [List.cons_append, matchK_plus, matchK_cls_cons, if_pos ha, h]

/-- A greedy star over a class gives back the last character of the run when
the continuation rejects what follows the run and accepts from that last
character on. -/
theorem starK_cls_last {β : Type} (p : Char → Bool) (u : List Char) (a : Char) (r : List Char)
    (c : Option (List Char)) (k : Kont β) (v : β) (n : Nat) (hn : u.length + 1 ≤ n)
    (hu : ∀ b ∈ u, p b = true) (ha : p a = true) (hr : stops p r = true)
    (hnone : k r c = none) (hk : k (a :: r) c = some v) :
    starK (matchK (.cls p)) n (u ++ a :: r) c k = some v := by
  induction u generalizing n with
  | nil =>
    cases n with
    | zero => simp at hn
    | succ n =>
      rw [List.nil_append, starK_succ, matchK_cls_cons, if_pos ha, if_pos (by simp),
        starK_cls_stop p r c k n hr, hnone]
      exact hk
  | cons b u ih =>
    cases n with
    | zero => simp at hn
    | succ n =>
      have hb : p b = true := hu b (List.mem_cons_self _ _)
      have ih' := ih n (by simpa using hn) (fun x hx => hu x (List.mem_cons_of_mem _ hx))
      rw [List.cons_append, starK_succ, matchK_cls_cons, if_pos hb, if_pos (by simp), ih']

/-! ## Soundness of the matcher on runs of a class -/

theorem matchK_cls_sound {β : Type} (p : Char → Bool) (s : List Char) (c : Option (List Char))
    (k : Kont β) (v : β) (h : matchK (.cls p) s c k = some v) :
    ∃ a t, s = a :: t ∧ p a = true ∧ k t c = some v := by
  cases s with
  | nil => exact absurd h (by simp [matchK])
  | cons a t =>
    rw [matchK_cls_cons] at h
    by_cases ha : p a = true
    · rw [if_pos ha] at h
      exact ⟨a, t, rfl, ha, h⟩
    · rw [if_neg ha] at h
      exact absurd h (by simp)

theorem starK_cls_sound {β : Type} (p : Char → Bool) (n : Nat) (s : List Char)
    (c : Option (List Char)) (k : Kont β) (v : β)
    (h : starK (matchK (.cls p)) n s c k = some v) :
    ∃ w t, s = w ++ t ∧ (∀ a ∈ w, p a = true) ∧ k t c = some v := by
  induction n generalizing s with
  | zero => exact ⟨[], s, rfl, by simp, h⟩
  | succ n ih =>
    rw [starK_succ] at h
    cases hm : matchK (.cls p) s c
        (fun t c' => if t.length < s.length then starK (matchK (.cls p)) n t c' k else none) with
    | none =>
      rw [hm] at h
      exact ⟨[], s, rfl, by simp, h⟩
    | some r =>
      rw [hm] at h
      have hrv : r = v := by simpa using h
      subst hrv
      obtain ⟨a, t, rfl, ha, hk⟩ := matchK_cls_sound p s c _ r hm
      rw [if_pos (by simp)] at hk
      obtain ⟨w, t', rfl, hw, hk'⟩ := ih t hk
      refine ⟨a :: w, t', rfl, ?_, hk'⟩
      intro b hb
      rcases List.mem_cons.1 hb with rfl | hb
      · exact ha
      · exact hw b hb

theorem plusK_cls_sound {β : Type} (p : Char → Bool) (s : List Char)
    (c : Option (List Char)) (k : Kont β) (v : β)
    (h : matchK (.plus (.cls p)) s c k = some v) :
    ∃ w t, s = w ++ t ∧ w ≠ [] ∧ (∀ a ∈ w, p a = true) ∧ k t c = some v := by
  rw [matchK_plus] at h
  obtain ⟨a, t, rfl, ha, hk⟩ := matchK_cls_sound p s c _ v h
  obtain ⟨w, t', rfl, hw, hk'⟩ := starK_cls_sound p _ t c k v hk
  refine ⟨a :: w, t', rfl, by simp, ?_, hk'⟩
  intro b hb
  rcases List.mem_cons.1 hb with rfl | hb
  · exact ha
  · exact hw b hb

/-! ## The character classes of the srcset expression -/

theorem isSpace_not_url (c : Char) (h : isSpace c = true) : isUrlChar c = false := by
  simp [isUrlChar, h]

theorem isDigit_not_space (c : Char) (h : isDigit c = true) : isSpace c = false := by
  cases hs : isSpace c with
  | false => rfl
  | true =>
    simp only [isSpace, Bool.or_eq_true, beq_iff_eq] at hs
    rcases hs with (((rfl | rfl) | rfl) | rfl) | rfl <;> exact absurd h (by decide)

theorem isWX_not_digit (c : Char) (h : isWX c = true) : isDigit c = false := by
  simp only [isWX, Bool.or_eq_true, beq_iff_eq] at h
  rcases h with rfl | rfl <;> decide

/-! ## The srcset expression on a candidate -/

/-- The optional tail `(?:,\s*)?` always lets the match end, with the capture
untouched. -/
theorem tail_some (s rest : List Char) (c : Option (List Char)) :
    ∃ m0, matchK (.quest (.cat (.cls isComma) (.star (.cls isSpace)))) rest c (finish s)
      = some (m0, c.getD []) := by
  rw [matchK_quest]
  cases h : matchK (.cat (.cls isComma) (.star (.cls isSpace))) rest c (finish s) with
  | none => exact ⟨_, rfl⟩
  | some r =>
    rw [matchK_cat] at h
    obtain ⟨a, t, _, _, hk⟩ := matchK_cls_sound isComma rest c _ r h
    rw [matchK_star] at hk
    obtain ⟨w, t', _, _, hk'⟩ := starK_cls_sound isSpace _ t c _ r hk
    simp only [finish, Option.some.injEq] at hk'
    exact ⟨_, by rw [← hk']⟩

/-- Anchored at a candidate `u ws ds d`, the srcset expression matches with
capture group 1 equal to the URL `u`. -/
theorem matchAt_candidate (u ws ds : List Char) (d : Char) (post : List Char)
    (hune : u ≠ []) (hu : ∀ a ∈ u, isUrlChar a = true)
    (hwne : ws ≠ []) (hw : ∀ a ∈ ws, isSpace a = true)
    (hdne : ds ≠ []) (hd : ∀ a ∈ ds, isDigit a = true) (hx : isWX d = true) :
    ∃ m0, matchAt srcsetRe (u ++ (ws ++ (ds ++ d :: post))) = some (m0, u) := by
  obtain ⟨m0, hQ⟩ := tail_some (u ++ (ws ++ (ds ++ d :: post))) post (some u)
  refine ⟨m0, ?_⟩
  -- the shape of the input
  obtain ⟨ws', a, rfl⟩ : ∃ ws' a, ws = ws' ++ [a] := by
    rcases List.eq_nil_or_concat ws with h | ⟨L, b, h⟩
    · exact absurd h hwne
    · exact ⟨L, b, by simpa using h⟩
  have ha : isSpace a = true := hw a (by simp)
  have hws' : ∀ b ∈ ws', isSpace b = true := fun b hb => hw b (by simp [hb])
  obtain ⟨d0, ds', rfl⟩ : ∃ d0 ds', ds = d0 :: ds' := by
    cases ds with
    | nil => exact absurd rfl hdne
    | cons d0 ds' => exact ⟨d0, ds', rfl⟩
  have hd0 : isDigit d0 = true := hd d0 (by simp)
  have hstopU : stops isUrlChar (ws' ++ [a] ++ (d0 :: ds' ++ d :: post)) = true := by
    cases ws' with
    | nil => simp [stops, isSpace_not_url a ha]
    | cons b bs => simp [stops, isSpace_not_url b (hws' b (by simp))]
  have hstopS : stops isSpace (d0 :: ds' ++ d :: post) = true := by
    simp [stops, isDigit_not_space d0 hd0]
  have hstopD : stops isDigit (d :: post) = true := by
    simp [stops, isWX_not_digit d hx]
  -- the digits and the unit
  have hD : matchK (.cat (.plus (.cls isDigit)) (.cls isWX)) (d0 :: ds' ++ d :: post) (some u)
      (fun t c' => matchK (.quest (.cat (.cls isComma) (.star (.cls isSpace)))) t c'
        (finish (u ++ (ws' ++ [a] ++ (d0 :: ds' ++ d :: post))))) = some (m0, u) := by
    rw [matchK_cat]
    apply plusK_cls_greedy isDigit (d0 :: ds') (d :: post) (some u) _ (m0, u)
      (by simp) hd hstopD
    show matchK (.cls isWX) (d :: post) (some u) _ = some (m0, u)
    rw [matchK_cls_cons, if_pos hx]
    exact hQ
  -- the separating white space
  have hS : ∀ r c, matchK (.cat (.cat (.plus (.cls isSpace))
        (.cat (.plus (.cls isDigit)) (.cls isWX)))
        (.quest (.cat (.cls isComma) (.star (.cls isSpace))))) r c
        (finish (u ++ (ws' ++ [a] ++ (d0 :: ds' ++ d :: post)))) =
      matchK (.plus (.cls isSpace)) r c
        (fun t c' => matchK (.cat (.plus (.cls isDigit)) (.cls isWX)) t c'
          (fun t c' => matchK (.quest (.cat (.cls isComma) (.star (.cls isSpace)))) t c'
            (finish (u ++ (ws' ++ [a] ++ (d0 :: ds' ++ d :: post)))))) := by
    intro r c
    rw [matchK_cat, matchK_cat]
  have hS1 : matchK (.cat (.cat (.plus (.cls isSpace))
        (.cat (.plus (.cls isDigit)) (.cls isWX)))
        (.quest (.cat (.cls isComma) (.star (.cls isSpace)))))
        (a :: (d0 :: ds' ++ d :: post)) (some u)
        (finish (u ++ (ws' ++ [a] ++ (d0 :: ds' ++ d :: post)))) = some (m0, u) := by
    rw [hS]
    exact plusK_cls_greedy isSpace [a] (d0 :: ds' ++ d :: post) (some u) _ (m0, u)
      (by simp) (by simpa using ha) hstopS hD
  have hS0 : matchK (.cat (.cat (.plus (.cls isSpace))
        (.cat (.plus (.cls isDigit)) (.cls isWX)))
        (.quest (.cat (.cls isComma) (.star (.cls isSpace)))))
        (d0 :: ds' ++ d :: post) (some u)
        (finish (u ++ (ws' ++ [a] ++ (d0 :: ds' ++ d :: post)))) = none := by
    rw [hS, matchK_plus]
    exact matchK_cls_stop isSpace _ _ _ hstopS
  -- the URL and the greedy `\s*`
  unfold matchAt srcsetRe
  rw [matchK_cat, matchK_cap]
  apply plusK_cls_greedy isUrlChar u (ws' ++ [a] ++ (d0 :: ds' ++ d :: post)) none _ (m0, u)
    hune hu hstopU
  show matchK _ (ws' ++ [a] ++ (d0 :: ds' ++ d :: post))
    (some ((u ++ (ws' ++ [a] ++ (d0 :: ds' ++ d :: post))).take _)) _ = some (m0, u)
  have htake : (u ++ (ws' ++ [a] ++ (d0 :: ds' ++ d :: post))).take
      ((u ++ (ws' ++ [a] ++ (d0 :: ds' ++ d :: post))).length
        - (ws' ++ [a] ++ (d0 :: ds' ++ d :: post)).length) = u := by
    simp
  rw [htake, matchK_cat, matchK_star]
  have hshape : ws' ++ [a] ++ (d0 :: ds' ++ d :: post) = ws' ++ a :: (d0 :: ds' ++ d :: post) := by
    simp
  rw [hshape] at hS0 hS1 ⊢
  exact starK_cls_last isSpace ws' a (d0 :: ds' ++ d :: post) (some u) _ (m0, u) _
    (by simp) hws' ha hstopS hS0 hS1

/-- At a candidate at the very start of a non-empty input the leftmost match
is the one anchored there. -/
theorem FindStringSubmatch_candidate (u ws ds : List Char) (d : Char) (post : List Char)
    (hune : u ≠ []) (hu : ∀ a ∈ u, isUrlChar a = true)
    (hwne : ws ≠ []) (hw : ∀ a ∈ ws, isSpace a = true)
    (hdne : ds ≠ []) (hd : ∀ a ∈ ds, isDigit a = true) (hx : isWX d = true) :
    ∃ m0, FindStringSubmatch srcsetRe (u ++ (ws ++ (ds ++ d :: post))) = some (m0, u) := by
  obtain ⟨m0, hm⟩ := matchAt_candidate u ws ds d post hune hu hwne hw hdne hd hx
  refine ⟨m0, ?_⟩
  cases u with
  | nil => exact absurd rfl hune
  | cons a u' =>
    rw [List.cons_append] at hm ⊢
    rw [FindStringSubmatch, hm]

/-! ## Decimal numerals -/

theorem digitChar_isDigit (k : Nat) (h : k < 10) : isDigit (Nat.digitChar k) = true := by
  interval_cases k <;> decide

theorem toDigitsCore_isDigit (fuel n : Nat) (acc : List Char)
    (hacc : ∀ c ∈ acc, isDigit c = true) :
    ∀ c ∈ Nat.toDigitsCore 10 fuel n acc, isDigit c = true := by
  induction fuel generalizing n acc with
  | zero => simpa [Nat.toDigitsCore] using hacc
  | succ fuel ih =>
    have hacc' : ∀ c ∈ Nat.digitChar (n % 10) :: acc, isDigit c = true := by
      intro c hc
      rcases List.mem_cons.1 hc with rfl | hc
      · exact digitChar_isDigit _ (Nat.mod_lt _ (by decide))
      · exact hacc c hc
    unfold Nat.toDigitsCore
    by_cases h0 : n / 10 = 0
    · simpa [h0] using hacc'
    · simpa [h0] using ih (n / 10) _ hacc'

theorem toDigitsCore_ne_nil (fuel n : Nat) (acc : List Char) (h : 0 < fuel ∨ acc ≠ []) :
    Nat.toDigitsCore 10 fuel n acc ≠ [] := by
  induction fuel generalizing n acc with
  | zero =>
    rcases h with h | h
    · exact absurd h (by decide)
    · simpa [Nat.toDigitsCore] using h
  | succ fuel ih =>
    unfold Nat.toDigitsCore
    by_cases h0 : n / 10 = 0
    · simp [h0]
    · simpa [h0] using ih (n / 10) _ (Or.inr (by simp))

theorem decimal_isDigit (n : Nat) : ∀ c ∈ (toString n).toList, isDigit c = true :=
  toDigitsCore_isDigit (n + 1) n [] (by simp)

theorem decimal_ne_nil (n : Nat) : (toString n).toList ≠ [] :=
  toDigitsCore_ne_nil (n + 1) n [] (Or.inl (Nat.succ_pos n))

/-! ## `cleanSrcset` -/

/-- C5 (amended): for a non-empty `url1` made of characters of the URL class
(no white space, comma, `"` or `'`), any `url2`, any numbers `n1`, `n2` and
suffix `w` or `x`, `cleanSrcset` of `"url1 n1d, url2 n2d"` is `url1`. -/
theorem cleanSrcset_first_url (url1 url2 : String) (n1 n2 : Nat) (d : Char)
    (hne : url1 ≠ "") (hu : ∀ c ∈ url1.toList, isUrlChar c = true)
    (hd : d = 'w' ∨ d = 'x') :
    cleanSrcset (srcsetPair url1 url2 n1 n2 d) = url1 := by
  have hx : isWX d = true := by rcases hd with rfl | rfl <;> decide
  have hune : url1.toList ≠ [] := by
    intro h
    apply hne
    cases url1
    simp_all
  have hshape : (srcsetPair url1 url2 n1 n2 d).toList =
      url1.toList ++ ([' '] ++ ((toString n1).toList ++
        d :: (", ".toList ++ url2.toList ++ [' '] ++ (toString n2).toList ++ [d]))) := by
    simp [srcsetPair]
  obtain ⟨m0, hm⟩ := FindStringSubmatch_candidate url1.toList [' '] (toString n1).toList d
    (", ".toList ++ url2.toList ++ [' '] ++ (toString n2).toList ++ [d])
    hune hu (by simp) (by simp [isSpace]) (decimal_ne_nil n1) (decimal_isDigit n1) hx
  unfold cleanSrcset
  rw [hshape, hm]
  simp

/-- Witness for C5 (amended): the srcset of the scenario, with widths. -/
theorem cleanSrcset_first_url_witness :
    ("http://x/1.png" : String) ≠ "" ∧
    (∀ c ∈ ("http://x/1.png" : String).toList, isUrlChar c = true) ∧
    srcsetPair "http://x/1.png" "http://x/2.png" 480 800 'w'
      = "http://x/1.png 480w, http://x/2.png 800w" ∧
    cleanSrcset (srcsetPair "http://x/1.png" "http://x/2.png" 480 800 'w') = "http://x/1.png" :=
  ⟨by decide, by decide, by decide,
    cleanSrcset_first_url "http://x/1.png" "http://x/2.png" 480 800 'w'
      (by decide) (by decide) (Or.inl rfl)⟩

/-- C5 as stated fails: a white-space-free first URL with a comma in it is not
returned; the match starts after the comma. -/
theorem cleanSrcset_first_url_comma :
    ("http://x/a,b.png" : String) ≠ "" ∧ ("http://x/c.png" : String) ≠ "" ∧
    (∀ c ∈ ("http://x/a,b.png" : String).toList, isSpace c = false ∧ c.isWhitespace = false) ∧
    (∀ c ∈ ("http://x/c.png" : String).toList, isSpace c = false ∧ c.isWhitespace = false) ∧
    srcsetPair "http://x/a,b.png" "http://x/c.png" 1 2 'w'
      = "http://x/a,b.png 1w, http://x/c.png 2w" ∧
    cleanSrcset (srcsetPair "http://x/a,b.png" "http://x/c.png" 1 2 'w') = "b.png" ∧
    cleanSrcset (srcsetPair "http://x/a,b.png" "http://x/c.png" 1 2 'w') ≠ "http://x/a,b.png" := by
  decide

/-- An anchored match of the srcset expression is a candidate at offset 0, and
capture group 1 is its URL. -/
theorem matchAt_sound (t : List Char) (m : List Char × List Char)
    (h : matchAt srcsetRe t = some m) :
    ∃ u ws ds d post, CandidateAt t [] u ws ds d post ∧ m.2 = u := by
  unfold matchAt srcsetRe at h
  rw [matchK_cat, matchK_cap] at h
  obtain ⟨u, r, rfl, hune, hu, h⟩ := plusK_cls_sound isUrlChar t none _ m h
  have htake : (u ++ r).take ((u ++ r).length - r.length) = u := by simp
  simp only [htake] at h
  rw [matchK_cat, matchK_star] at h
  obtain ⟨w1, r1, rfl, hw1, h⟩ := starK_cls_sound isSpace _ r (some u) _ m h
  rw [matchK_cat, matchK_cat] at h
  obtain ⟨w2, r2, rfl, hw2ne, hw2, h⟩ := plusK_cls_sound isSpace r1 (some u) _ m h
  rw [matchK_cat] at h
  obtain ⟨ds, r3, rfl, hdne, hd, h⟩ := plusK_cls_sound isDigit r2 (some u) _ m h
  obtain ⟨d, post, rfl, hx, h⟩ := matchK_cls_sound isWX r3 (some u) _ m h
  obtain ⟨m0, hQ⟩ := tail_some (u ++ (w1 ++ (w2 ++ (ds ++ d :: post)))) post (some u)
  rw [hQ] at h
  refine ⟨u, w1 ++ w2, ds, d, post, ⟨by simp, hune, hu, by simp [hw2ne], ?_, hdne, hd, hx⟩, ?_⟩
  · intro a ha
    rcases List.mem_append.1 ha with ha | ha
    · exact hw1 a ha
    · exact hw2 a ha
  · have : m = (m0, u) := by simpa using h.symm
    rw [this]

/-- A match found by `FindStringSubmatch` is a candidate somewhere in the
input, and capture group 1 is its URL. -/
theorem FindStringSubmatch_sound (s : List Char) (m : List Char × List Char)
    (h : FindStringSubmatch srcsetRe s = some m) :
    ∃ pre u ws ds d post, CandidateAt s pre u ws ds d post ∧ m.2 = u := by
  induction s with
  | nil =>
    rw [FindStringSubmatch] at h
    obtain ⟨u, ws, ds, d, post, hc, hm⟩ := matchAt_sound [] m h
    exact ⟨[], u, ws, ds, d, post, hc, hm⟩
  | cons a t ih =>
    rw [FindStringSubmatch] at h
    cases hm : matchAt srcsetRe (a :: t) with
    | some m' =>
      rw [hm] at h
      have hmm : m' = m := by simpa using h
      subst hmm
      obtain ⟨u, ws, ds, d, post, hc, hm2⟩ := matchAt_sound (a :: t) m' hm
      exact ⟨[], u, ws, ds, d, post, hc, hm2⟩
    | none =>
      rw [hm] at h
      obtain ⟨pre, u, ws, ds, d, post, hc, hm2⟩ := ih h
      refine ⟨a :: pre, u, ws, ds, d, post, ?_, hm2⟩
      obtain ⟨hs, rest⟩ := hc
      exact ⟨by rw [hs]; rfl, rest⟩

/-- Where a candidate occurs, `FindStringSubmatch` finds a match. -/
theorem FindStringSubmatch_complete (s : List Char) (h : HasCandidate s) :
    ∃ m, FindStringSubmatch srcsetRe s = some m := by
  obtain ⟨pre, u, ws, ds, d, post, hs, hune, hu, hwne, hw, hdne, hd, hx⟩ := h
  subst hs
  induction pre with
  | nil =>
    obtain ⟨m0, hm⟩ := FindStringSubmatch_candidate u ws ds d post hune hu hwne hw hdne hd hx
    exact ⟨_, hm⟩
  | cons a pre ih =>
    rw [List.cons_append, FindStringSubmatch]
    cases hm : matchAt srcsetRe (a :: (pre ++ (u ++ (ws ++ (ds ++ d :: post))))) with
    | some m' => exact ⟨m', rfl⟩
    | none => exact ih

/-- When the expression matches at no offset inside `pre`, the leftmost match
in `pre ++ rest` is the leftmost match in `rest`. -/
theorem FindStringSubmatch_leftmost (pre rest : List Char) (m : List Char × List Char)
    (hnone : ∀ p1 p2, pre = p1 ++ p2 → p2 ≠ [] → matchAt srcsetRe (p2 ++ rest) = none)
    (hm : FindStringSubmatch srcsetRe rest = some m) :
    FindStringSubmatch srcsetRe (pre ++ rest) = some m := by
  induction pre with
  | nil => simpa using hm
  | cons a pre ih =>
    have h0 : matchAt srcsetRe (a :: (pre ++ rest)) = none :=
      hnone [] (a :: pre) rfl (by simp)
    rw [List.cons_append, FindStringSubmatch, h0]
    exact ih (fun p1 p2 hp hp2 => hnone (a :: p1) p2 (by rw [hp]; rfl) hp2)

/-- C6 (amended): `cleanSrcset val` is `val` itself exactly when no candidate
with an integer descriptor (URL characters, white space, digits, `w` or `x`)
occurs anywhere in `val`; and when candidates occur, the result is the URL of
the leftmost one (the candidate at the smallest offset). -/
theorem cleanSrcset_fallback_or_leftmost (val : String) :
    (cleanSrcset val = val ↔ ¬ HasCandidate val.toList) ∧
    ∀ pre u ws ds d post, CandidateAt val.toList pre u ws ds d post →
      (∀ pre' u' ws' ds' d' post', CandidateAt val.toList pre' u' ws' ds' d' post' →
        pre.length ≤ pre'.length) →
      cleanSrcset val = String.mk u := by
  refine ⟨⟨?_, ?_⟩, ?_⟩
  · intro h hc
    obtain ⟨m, hm⟩ := FindStringSubmatch_complete val.toList hc
    obtain ⟨pre, u, ws, ds, d, post, ⟨hs, _, _, hwne, _⟩, hm2⟩ :=
      FindStringSubmatch_sound val.toList m hm
    unfold cleanSrcset at h
    rw [hm] at h
    simp only [] at h
    have hl : m.2 = val.toList := by rw [← h]; rfl
    have hlen := congrArg List.length hs
    rw [← hl, hm2] at hlen
    simp only [List.length_append, List.length_cons] at hlen
    have : 0 < ws.length := List.length_pos.2 hwne
    omega
  · intro h
    unfold cleanSrcset
    cases hm : FindStringSubmatch srcsetRe val.toList with
    | none => rfl
    | some m =>
      obtain ⟨pre, u, ws, ds, d, post, hc, _⟩ := FindStringSubmatch_sound val.toList m hm
      exact absurd ⟨pre, u, ws, ds, d, post, hc⟩ h
  · intro pre u ws ds d post hc hmin
    obtain ⟨hs, hune, hu, hwne, hw, hdne, hd, hx⟩ := hc
    obtain ⟨m0, hm⟩ := FindStringSubmatch_candidate u ws ds d post hune hu hwne hw hdne hd hx
    have hfind : FindStringSubmatch srcsetRe (pre ++ (u ++ (ws ++ (ds ++ d :: post))))
        = some (m0, u) := by
      apply FindStringSubmatch_leftmost pre _ (m0, u) _ hm
      intro p1 p2 hp hp2
      cases hm' : matchAt srcsetRe (p2 ++ (u ++ (ws ++ (ds ++ d :: post)))) with
      | none => rfl
      | some m' =>
        obtain ⟨u', ws', ds', d', post', ⟨hs', rest'⟩, _⟩ := matchAt_sound _ m' hm'
        have hle := hmin p1 u' ws' ds' d' post'
          ⟨by rw [hs, hp, List.append_assoc, hs']; rfl, rest'⟩
        have hlen : pre.length = p1.length + p2.length := by rw [hp, List.length_append]
        have hpos : 0 < p2.length := List.length_pos.2 hp2
        omega
    unfold cleanSrcset
    rw [hs, hfind]

/-- Witness for C6 (amended): in `a.png 1.5x, b.png 2x` the leftmost candidate
is `b.png 2x` at offset 12, and its URL is the result. -/
theorem cleanSrcset_fallback_or_leftmost_witness :
    CandidateAt "a.png 1.5x, b.png 2x".toList "a.png 1.5x, ".toList "b.png".toList
      [' '] ['2'] 'x' [] ∧
    cleanSrcset "a.png 1.5x, b.png 2x" = "b.png" := by
  have hc : CandidateAt "a.png 1.5x, b.png 2x".toList "a.png 1.5x, ".toList "b.png".toList
      [' '] ['2'] 'x' [] := by
    unfold CandidateAt
    decide
  have hnone : ∀ k, k < 12 →
      matchAt srcsetRe ("a.png 1.5x, b.png 2x".toList.drop k) = none := by
    decide
  refine ⟨hc, ?_⟩
  apply (cleanSrcset_fallback_or_leftmost "a.png 1.5x, b.png 2x").2 _ _ _ _ _ _ hc
  intro pre' u' ws' ds' d' post' hc'
  obtain ⟨hs', hune, hu, hwne, hw, hdne, hd, hx⟩ := hc'
  obtain ⟨m0, hm⟩ := matchAt_candidate u' ws' ds' d' post' hune hu hwne hw hdne hd hx
  by_contra hlt
  have hk := hnone pre'.length (by simpa using hlt)
  rw [hs', List.drop_left, hm] at hk
  exact absurd hk (by simp)

/-- C6 as stated fails: on the two values the claim names the result is the
URL of the second candidate, not the value. -/
theorem cleanSrcset_malformed_changed :
    cleanSrcset "a.png 1.5x, b.png 2x" = "b.png" ∧
    cleanSrcset "a.png 1.5x, b.png 2x" ≠ "a.png 1.5x, b.png 2x" ∧
    cleanSrcset "a.png, b.png 2x" = "b.png" ∧
    cleanSrcset "a.png, b.png 2x" ≠ "a.png, b.png 2x" := by
  decide

/-- Values without any integer descriptor come back as they are. -/
theorem cleanSrcset_examples_unchanged :
    cleanSrcset "a.png 1.5x" = "a.png 1.5x" ∧ cleanSrcset "a.png, b.png" = "a.png, b.png" ∧
    cleanSrcset "a.png" = "a.png" ∧ cleanSrcset "" = "" := by
  decide

end Tinderizer
